import Mathlib

/-!
Verification development for the `mdio` crate: a shallow embedding of its
data model (`src/conf.rs`, `src/rvec.rs`) and its GROMOS87 fixed-width codec
(`src/gromos87.rs`), together with theorems settling the specified behaviour
of the residue-grouping iterator, the codec, periodic replication and the
name-interning helpers.

Modelling conventions:
* `f64` is modelled as `Fl`, an exact fraction of an `Int` numerator over a
  `Nat` denominator, kept unreduced.  No claim below depends on rounding,
  overflow or NaN behaviour; numeric values only flow through `+` and `*`,
  which the embedding mirrors symbolically, and every numeric equality stated
  below compares values produced by identical computations (or literals
  chosen to match the computation exactly), so unreduced structural equality
  is adequate.
* `Rc<RefCell<String>>` interned-name handles are modelled as `NameRef`
  records carrying an allocation id and the text; Rust's `Rc::ptr_eq` becomes
  equality of allocation ids (`NameRef.ptrEq`).
* Strings are `List Char` (all inputs of interest are ASCII, where Rust's
  byte indexing coincides with character indexing).
* A Rust panic is a distinguished outcome constructor (`panicked`), never a
  Lean error.
-/

/-- Allocation-identity-carrying interned name, modelling `Rc<RefCell<String>>`.
`id` stands for the allocation address: `Rc::ptr_eq` is `id` equality. -/
structure NameRef where
  id : Nat
  text : List Char
deriving DecidableEq

/-- Model of `Rc::ptr_eq` on interned name handles. -/
def NameRef.ptrEq (a b : NameRef) : Bool :=
  a.id == b.id

/-- Model of `struct Residue` from `src/conf.rs`: an interned residue name and
the ordered list of declared atom-name slots. -/
structure Residue where
  name : NameRef
  atoms : List NameRef
deriving DecidableEq

instance : Inhabited Residue := ⟨⟨⟨0, []⟩, []⟩⟩

/-- Exact-fraction stand-in for `f64`: `num / den`, not reduced. -/
structure Fl where
  num : Int
  den : Nat
deriving DecidableEq

/-- Embed a natural number. -/
def Fl.ofNat (n : Nat) : Fl :=
  ⟨(n : Int), 1⟩

instance (n : Nat) : OfNat Fl n := ⟨Fl.ofNat n⟩

/-- Exact fraction addition (unreduced). -/
def Fl.add (a b : Fl) : Fl :=
  ⟨a.num * (b.den : Int) + b.num * (a.den : Int), a.den * b.den⟩

instance : Add Fl := ⟨Fl.add⟩

/-- Exact fraction multiplication (unreduced). -/
def Fl.mul (a b : Fl) : Fl :=
  ⟨a.num * b.num, a.den * b.den⟩

instance : Mul Fl := ⟨Fl.mul⟩

/-- Negation. -/
def Fl.neg (a : Fl) : Fl :=
  ⟨-a.num, a.den⟩

/-- Model of `struct RVec` from `src/rvec.rs`, with `f64` as `Fl`. -/
structure RVec where
  x : Fl
  y : Fl
  z : Fl
deriving DecidableEq

/-- Componentwise addition (`impl Add for RVec`). -/
def RVec.add (a b : RVec) : RVec :=
  ⟨a.x + b.x, a.y + b.y, a.z + b.z⟩

instance : Add RVec := ⟨RVec.add⟩

/-- Model of `RVec::pbc_multiply`: scale each component by the replication
count along its axis. -/
def RVec.pbc_multiply (v : RVec) (nx ny nz : Nat) : RVec :=
  ⟨v.x * Fl.ofNat nx, v.y * Fl.ofNat ny, v.z * Fl.ofNat nz⟩

/-- Model of `struct Atom` from `src/conf.rs`.  The `residue` field holds the
dereferenced contents of the Rust `Rc<RefCell<Residue>>`; no code under
verification mutates a residue while atoms referencing it are in scope, so
carrying the value is observationally faithful. -/
structure Atom where
  name : NameRef
  residue : Residue
  position : RVec
  velocity : Option RVec
deriving DecidableEq

/-- Model of `struct Conf` from `src/conf.rs`. -/
structure Conf where
  title : List Char
  origin : RVec
  size : RVec
  residues : List Residue
  atoms : List Atom
deriving DecidableEq

/-- State of `ResidueIter` from `src/conf.rs`: a cursor and the borrowed atom
slice. -/
structure ResidueIter where
  index : Nat
  atoms : List Atom
deriving DecidableEq

/-- Model of `Conf::iter_residues`. -/
def Conf.iter_residues (conf : Conf) : ResidueIter :=
  ⟨0, conf.atoms⟩

/-- Outcome of one `ResidueIter::next` call.  `done` is Rust's `None`,
`ok`/`err` are `Some(Ok(..))`/`Some(Err(..))` (the error carries the
`ResidueError::index` field), and `panicked` marks the out-of-bounds indexing
`residue.borrow().atoms[0]` on an empty template. -/
inductive NextOutcome where
  | done
  | ok (group : List Atom)
  | err (index : Nat)
  | panicked
deriving DecidableEq

/-- The inner `for i in 1..residue_len` walk of `ResidueIter::next`:
`slots` is the remainder of the template (`residue.atoms[1..]`), `i` the
current offset.  Returns the collected atoms on success, or the failing
offset `i` (Rust's loop variable at the first missed or mismatched slot). -/
def matchRest (atoms : List Atom) (start : Nat) : List NameRef → Nat → (List Atom ⊕ Nat)
  | [], _ => .inl []
  | slot :: rest, i =>
    match atoms[start + i]? with
    | some atom =>
      if atom.name.ptrEq slot then
        match matchRest atoms start rest (i + 1) with
        | .inl l => .inl (atom :: l)
        | .inr j => .inr j
      else .inr i
    | none => .inr i

/-- Model of `ResidueIter::next` (with `get_iter_error` inlined: an error at
offset `i` advances the cursor by `i` and reports the cursor position at
which the attempt began). -/
def ResidueIter.next (it : ResidueIter) : NextOutcome × ResidueIter :=
  match it.atoms[it.index]? with
  | none => (.done, it)
  | some atom1 =>
    let residue := atom1.residue
    match residue.atoms with
    | [] => (.panicked, it)
    | slot0 :: restSlots =>
      if atom1.name.ptrEq slot0 then
        match matchRest it.atoms it.index restSlots 1 with
        | .inl l => (.ok (atom1 :: l), ⟨it.index + residue.atoms.length, it.atoms⟩)
        | .inr j => (.err it.index, ⟨it.index + j, it.atoms⟩)
      else (.err it.index, ⟨it.index + 1, it.atoms⟩)

/-- One emitted result of the grouping iterator, as seen by consumers. -/
inductive StepRes where
  | ok (group : List Atom)
  | err (index : Nat)
deriving DecidableEq

/-- How a bounded run of the iterator ended. -/
inductive RunEnd where
  | done
  | panicked
  | fuelOut
deriving DecidableEq

/-- Drive the iterator for at most `fuel` calls, recording for every emitted
result the cursor before and after the call, together with the final
iterator state and how the run ended. -/
def runTrace : Nat → ResidueIter → List (StepRes × Nat × Nat) × ResidueIter × RunEnd
  | 0, it => ([], it, .fuelOut)
  | fuel + 1, it =>
    match it.next with
    | (.done, it') => ([], it', .done)
    | (.panicked, it') => ([], it', .panicked)
    | (.ok g, it') =>
      let r := runTrace fuel it'
      ((.ok g, it.index, it'.index) :: r.1, r.2)
    | (.err i, it') =>
      let r := runTrace fuel it'
      ((.err i, it.index, it'.index) :: r.1, r.2)

/-- Interned slot `AT1` of the two-slot template scenario. -/
def at1C1 : NameRef := ⟨1, ['A', 'T', '1']⟩

/-- Interned slot `AT2` of the two-slot template scenario. -/
def at2C1 : NameRef := ⟨2, ['A', 'T', '2']⟩

/-- The interned two-slot residue template `[AT1, AT2]`. -/
def resC1 : Residue := ⟨⟨0, ['R', 'E', 'S']⟩, [at1C1, at2C1]⟩

/-- Atom number `k` of the scenario, named by template slot `n`. -/
def mkAtomC1 (k : Nat) (n : NameRef) : Atom :=
  ⟨n, resC1, ⟨Fl.ofNat k, 0, 0⟩, none⟩

/-- The atom list `[AT1, AT2, AT1, AT1, AT1, AT2]` of the scenario, atom `k`
tagged with position `x = k`. -/
def atomsC1 : List Atom :=
  [mkAtomC1 0 at1C1, mkAtomC1 1 at2C1, mkAtomC1 2 at1C1,
   mkAtomC1 3 at1C1, mkAtomC1 4 at1C1, mkAtomC1 5 at2C1]

/-- Model of Rust's `str::trim`: drop whitespace from both ends.  (Inputs of
interest are ASCII, where Lean's `Char.isWhitespace` agrees with Rust's
`char::is_whitespace`.) -/
def strTrim (s : List Char) : List Char :=
  ((s.dropWhile Char.isWhitespace).reverse.dropWhile Char.isWhitespace).reverse

/-- Accumulated numeric value of a digit string. -/
def digitsVal (ds : List Char) : Nat :=
  ds.foldl (fun acc c => acc * 10 + (c.toNat - 48)) 0

/-- Optional exponent suffix of a float literal: empty input returns the
mantissa, `e`/`E` with a signed digit string scales it by the corresponding
power of ten (onto the numerator for a nonnegative exponent, onto the
denominator for a negative one), anything else is a parse failure. -/
def parseExpPart (mant : Fl) (rest : List Char) : Option Fl :=
  match rest with
  | [] => some mant
  | e :: r =>
    if e = 'e' ∨ e = 'E' then
      let sgnRest : Bool × List Char :=
        match r with
        | '+' :: rr => (false, rr)
        | '-' :: rr => (true, rr)
        | rr => (false, rr)
      let eds := sgnRest.2.takeWhile Char.isDigit
      let r3 := sgnRest.2.dropWhile Char.isDigit
      if eds.isEmpty || !r3.isEmpty then none
      else if sgnRest.1 then some ⟨mant.num, mant.den * 10 ^ digitsVal eds⟩
      else some ⟨mant.num * (10 : Int) ^ digitsVal eds, mant.den⟩
    else none

/-- Modelled from the numeric-literal grammar of Rust's `f64::from_str`
(an external std collaborator of the repository): optional sign, then
`Digit+ | Digit+ '.' Digit* | Digit* '.' Digit+`, then an optional
`e`/`E` exponent.  The `inf`/`NaN` literal forms are omitted; no input
considered below uses them. -/
def parseF64 (s : List Char) : Option Fl :=
  let sgnRest : Bool × List Char :=
    match s with
    | '+' :: r => (false, r)
    | '-' :: r => (true, r)
    | r => (false, r)
  let sgnApply : Fl → Fl := fun v => if sgnRest.1 then v.neg else v
  let ip := sgnRest.2.takeWhile Char.isDigit
  let rest1 := sgnRest.2.dropWhile Char.isDigit
  match rest1 with
  | '.' :: r2 =>
    let fp := r2.takeWhile Char.isDigit
    let rest2 := r2.dropWhile Char.isDigit
    if ip.isEmpty && fp.isEmpty then none
    else
      parseExpPart
        (sgnApply ⟨(digitsVal ip * 10 ^ fp.length + digitsVal fp : Nat), 10 ^ fp.length⟩) rest2
  | _ =>
    if ip.isEmpty then none
    else parseExpPart (sgnApply ⟨(digitsVal ip : Int), 1⟩) rest1

/-- Modelled from Rust's `usize::from_str` (external std collaborator):
an optional `+` sign followed by one or more digits. -/
def parseUsize (s : List Char) : Option Nat :=
  let rest : List Char :=
    match s with
    | '+' :: r => r
    | r => r
  if rest.isEmpty then none
  else if rest.all Char.isDigit then some (digitsVal rest) else none

/-- Accumulator pass behind `chunksOf`: `k` counts how many characters still
fit in the chunk being built (held reversed in `acc`). -/
def chunksOfAux (n : Nat) : List Char → Nat → List Char → List (List Char)
  | [], _, acc => if acc.isEmpty then [] else [acc.reverse]
  | c :: rest, k, acc =>
    match k with
    | 0 => acc.reverse :: chunksOfAux n rest (n - 1) [c]
    | k' + 1 => chunksOfAux n rest k' (c :: acc)

/-- Model of slice `chunks`: split into consecutive pieces of `n` characters,
the last piece possibly shorter.  (All call sites use `n = 8`.) -/
def chunksOf (n : Nat) (l : List Char) : List (List Char) :=
  chunksOfAux n l n []

/-- Accumulator pass behind `splitWs`; `acc` holds the current token
reversed. -/
def splitWsAux : List Char → List Char → List (List Char)
  | [], acc => if acc.isEmpty then [] else [acc.reverse]
  | c :: rest, acc =>
    if c.isWhitespace then
      if acc.isEmpty then splitWsAux rest [] else acc.reverse :: splitWsAux rest []
    else splitWsAux rest (c :: acc)

/-- Model of Rust's `str::split_whitespace`: maximal runs of non-whitespace
characters, in order, with no empty tokens. -/
def splitWs (s : List Char) : List (List Char) :=
  splitWsAux s []

/-- Error type of the `RVec` text parsers (`src/rvec.rs`). -/
inductive ParseRVecError where
  | MissingValues
  | ParseFloatError
deriving DecidableEq

/-- Decidable equality for parser results. -/
instance {e a : Type} [DecidableEq e] [DecidableEq a] : DecidableEq (Except e a) := fun x y =>
  match x, y with
  | .ok v, .ok w =>
    if h : v = w then .isTrue (by rw [h]) else .isFalse (by intro hc; cases hc; exact h rfl)
  | .ok _, .error _ => .isFalse (by intro hc; cases hc)
  | .error _, .ok _ => .isFalse (by intro hc; cases hc)
  | .error v, .error w =>
    if h : v = w then .isTrue (by rw [h]) else .isFalse (by intro hc; cases hc; exact h rfl)

/-- Lazy extraction of the `i`-th fixed-width field: absent chunk is
`MissingValues`, unparsable chunk is `ParseFloatError` (the chunk is trimmed
before parsing, as in the source). -/
def nthChunkParse (chunks : List (List Char)) (i : Nat) : Except ParseRVecError Fl :=
  match chunks[i]? with
  | none => .error .MissingValues
  | some c =>
    match parseF64 (strTrim c) with
    | some v => .ok v
    | none => .error .ParseFloatError

/-- Model of `RVec::from_fixed`: blank input is `MissingValues`; otherwise the
first three `length`-wide chunks are parsed as the three components.  Only the
first three chunks are examined, matching the lazy iterator in the source. -/
def RVec.from_fixed (input : List Char) (len : Nat) : Except ParseRVecError RVec :=
  if strTrim input = [] then .error .MissingValues
  else
    let chunks := chunksOf len input
    match nthChunkParse chunks 0 with
    | .error e => .error e
    | .ok x =>
      match nthChunkParse chunks 1 with
      | .error e => .error e
      | .ok y =>
        match nthChunkParse chunks 2 with
        | .error e => .error e
        | .ok z => .ok ⟨x, y, z⟩

/-- Model of `RVec::from_whitespace`.  Mirrors the source exactly: a missing
first token is `MissingValues`, but a missing second or third token is
reported as `ParseFloatError`. -/
def RVec.from_whitespace (input : List Char) : Except ParseRVecError RVec :=
  let toks := (splitWs input).map parseF64
  match toks[0]? with
  | none => .error .MissingValues
  | some none => .error .ParseFloatError
  | some (some x) =>
    match toks[1]? with
    | none => .error .ParseFloatError
    | some none => .error .ParseFloatError
    | some (some y) =>
      match toks[2]? with
      | none => .error .ParseFloatError
      | some none => .error .ParseFloatError
      | some (some z) => .ok ⟨x, y, z⟩

/-- The half-open character range `[a, b)` of a line. -/
def strSlice (a b : Nat) (l : List Char) : List Char :=
  (l.take b).drop a

/-- The fields of one parsed atom record (`struct Line` in
`src/gromos87.rs`; the commented-out index fields are omitted there too). -/
structure GroAtomLine where
  residue_name : List Char
  atom_name : List Char
  position : RVec
  velocity : Option RVec
deriving DecidableEq

/-- Model of `parse_atom_line` from `src/gromos87.rs`; `none` is the
`ParseLineError` result. -/
def parse_atom_line (line : List Char) : Option GroAtomLine :=
  if line.length < 44 then none
  else
    let residue_name := strTrim (strSlice 5 10 line)
    let atom_name := strTrim (strSlice 10 15 line)
    match RVec.from_fixed (line.drop 20) 8 with
    | .error _ => none
    | .ok position =>
      match RVec.from_fixed (line.drop 44) 8 with
      | .ok v => some ⟨residue_name, atom_name, position, some v⟩
      | .error .MissingValues => some ⟨residue_name, atom_name, position, none⟩
      | .error .ParseFloatError => none

/-- Index of the first residue in the list whose name text equals `name`,
modelling `residues.iter().find(..)` in `get_or_insert_residue` (the returned
`Rc` handle is identified with the position of the entry it points at, which
is stable because the list only ever grows by appending). -/
def findResIdx (name : List Char) : List Residue → Option Nat
  | [] => none
  | r :: rest =>
    if r.name.text = name then some 0 else (findResIdx name rest).map (· + 1)

/-- First declared slot of the residue whose text equals `name`, modelling
`self.atoms.iter().find(..)` in `Residue::get_or_insert_atom`. -/
def findAtomRef (name : List Char) : List NameRef → Option NameRef
  | [] => none
  | n :: rest => if n.text = name then some n else findAtomRef name rest

/-- Model of `Residue::get_or_insert_atom`: return the existing slot of
matching text, or allocate a fresh interned name (allocation id drawn from the
`fresh` counter, mirroring a new `Rc` allocation) and append it. -/
def Residue.get_or_insert_atom (res : Residue) (atom_name : List Char) (fresh : Nat) :
    NameRef × Residue × Nat :=
  match findAtomRef atom_name res.atoms with
  | some n => (n, res, fresh)
  | none =>
    let a : NameRef := ⟨fresh, atom_name⟩
    (a, { res with atoms := res.atoms ++ [a] }, fresh + 1)

/-- Model of `get_or_insert_residue` from `src/conf.rs`: return the handle of
the existing residue of matching name text, or append a new residue with an
empty atom-name list.  The returned handle is the entry's position. -/
def get_or_insert_residue (name : List Char) (residues : List Residue) (fresh : Nat) :
    Nat × List Residue × Nat :=
  match findResIdx name residues with
  | some i => (i, residues, fresh)
  | none => (residues.length, residues ++ [⟨⟨fresh, name⟩, []⟩], fresh + 1)

/-- Model of `get_or_insert_atom_and_residue` from `src/conf.rs` (the source
wraps the result in `Ok`, and no call path produces the `Err` case; the model
returns the payload directly). -/
def get_or_insert_atom_and_residue (residue_name atom_name : List Char)
    (residues : List Residue) (fresh : Nat) : (Nat × NameRef) × List Residue × Nat :=
  let r := get_or_insert_residue residue_name residues fresh
  let res := r.2.1.getD r.1 default
  let a := res.get_or_insert_atom atom_name r.2.2
  ((r.1, a.1), r.2.1.set r.1 a.2.1, a.2.2)

/-- The `ReadError` enum of `src/gromos87.rs`.  (`Utf8Error` cannot arise in
the embedding, whose input is already text; `MissingTitle`, `MissingNumAtoms`,
`MissingAtomLine`, `NoBoxSize` and `BoxSizeError` are declared in the source
but never constructed there either.) -/
inductive ReadError where
  | Utf8Error (line : Nat)
  | MissingTitle
  | MissingNumAtoms
  | NumAtomsError
  | MissingAtomLine (line : Nat)
  | LineError (line : Nat)
  | NoBoxSize (line : Nat)
  | BoxSizeError (line : Nat)
deriving DecidableEq

/-- Result of decoding a stream: success, a returned `ReadError`, or a panic
(the source's `.expect("could not read box size")`). -/
inductive DecodeResult where
  | ok (conf : Conf)
  | err (e : ReadError)
  | panicked
deriving DecidableEq

/-- Model of `BufRead::read_line` on a newline-terminated text stream given as
a list of lines: line `k` is returned with its trailing newline, and reading
past the end yields the empty string (Rust's `Ok(0)` at end of file). -/
def readLineAt (lines : List (List Char)) (k : Nat) : List Char :=
  match lines[k]? with
  | some l => l ++ ['\n']
  | none => []

/-- An atom as accumulated during decoding: the residue is recorded by
handle, and resolved to its final contents once the decode loop is done
(an `Rc` deref after decoding observes the fully built residue). -/
structure RawAtom where
  name : NameRef
  resIdx : Nat
  position : RVec
  velocity : Option RVec
deriving DecidableEq

/-- The `for i in 0..num_atoms` record loop of `read_gromos87_conf`: read and
parse one atom line per iteration, interning names as they are first seen.  A
parse failure aborts with `LineError(2 + i)` exactly as the source computes
the line number. -/
def readAtomsLoop (lines : List (List Char)) :
    Nat → Nat → List Residue → Nat → List RawAtom →
    Except ReadError (List RawAtom × List Residue × Nat)
  | 0, _, residues, fresh, acc => .ok (acc.reverse, residues, fresh)
  | m + 1, i, residues, fresh, acc =>
    let buf := readLineAt lines (2 + i)
    match parse_atom_line buf with
    | none => .error (.LineError (2 + i))
    | some al =>
      let r := get_or_insert_atom_and_residue al.residue_name al.atom_name residues fresh
      readAtomsLoop lines m (i + 1) r.2.1 r.2.2
        (⟨r.1.2, r.1.1, al.position, al.velocity⟩ :: acc)

/-- Model of `read_gromos87_conf` from `src/gromos87.rs`.  The title is
`buf.trim()` of line 1; the atom count `buf.trim().parse::<usize>()` of
line 2; then `num_atoms` records; finally the box-size line, whose parse
failure hits the source's `.expect` and panics. -/
def read_gromos87_conf (lines : List (List Char)) : DecodeResult :=
  let title := strTrim (readLineAt lines 0)
  match parseUsize (strTrim (readLineAt lines 1)) with
  | none => .err .NumAtomsError
  | some num_atoms =>
    match readAtomsLoop lines num_atoms 0 [] 0 [] with
    | .error e => .err e
    | .ok (raw, residues, _) =>
      match RVec.from_whitespace (readLineAt lines (2 + num_atoms)) with
      | .error _ => .panicked
      | .ok size =>
        .ok
          { title := title
            origin := ⟨0, 0, 0⟩
            size := size
            residues := residues
            atoms := raw.map fun r =>
              ⟨r.name, residues.getD r.resIdx default, r.position, r.velocity⟩ }

/-- The value-level fields of one encoded atom record, before fixed-width
formatting: wrapped residue ordinal, residue name text, atom name text,
wrapped atom ordinal, position, optional velocity. -/
structure WriteLine where
  res_num : Nat
  residue_name : List Char
  atom_name : List Char
  atom_num : Nat
  position : RVec
  velocity : Option RVec
deriving DecidableEq

/-- Result of the encoder's residue loop. -/
inductive LoopResult where
  | ok (lines : List WriteLine)
  | BadResidue (res : Nat)
  | panicked
  | fuelOut
deriving DecidableEq

/-- The inner atom loop of `write_gromos87_conf`: emit one record per atom of
the group, incrementing the running atom ordinal and wrapping it modulo
100000. -/
def emitGroup (group : List Atom) (res_wrapped atom_num : Nat) : List WriteLine × Nat :=
  match group with
  | [] => ([], atom_num)
  | atom :: rest =>
    let n := atom_num + 1
    let line : WriteLine :=
      ⟨res_wrapped, atom.residue.name.text, atom.name.text, n % 100000,
       atom.position, atom.velocity⟩
    let r := emitGroup rest res_wrapped n
    (line :: r.1, r.2)

/-- The `for (res_num, residue) in conf.iter_residues().enumerate()` loop of
`write_gromos87_conf`: each successful group is emitted with residue ordinal
`(res_num + 1) % 100000`; a grouping error aborts with
`BadResidue(res_num + 1)`.  The fuel bound only guards Lean totality; one
unit of fuel per emitted group plus one suffices, since every group consumes
at least one atom. -/
def writeLoop : Nat → ResidueIter → Nat → Nat → LoopResult
  | 0, _, _, _ => .fuelOut
  | fuel + 1, it, res_num, atom_num =>
    match it.next with
    | (.done, _) => .ok []
    | (.panicked, _) => .panicked
    | (.err _, _) => .BadResidue (res_num + 1)
    | (.ok group, it') =>
      let res_wrapped := (res_num + 1) % 100000
      let r := emitGroup group res_wrapped atom_num
      match writeLoop fuel it' (res_num + 1) r.2 with
      | .ok rest => .ok (r.1 ++ rest)
      | other => other

/-- The whole encoded stream at value level: title line, atom-count line, the
atom records, and the box-size line. -/
structure GroOut where
  title : List Char
  num_atoms : Nat
  lines : List WriteLine
  box_size : RVec
deriving DecidableEq

/-- Result of `write_gromos87_conf`. -/
inductive WriteResult where
  | ok (out : GroOut)
  | BadResidue (res : Nat)
  | panicked
  | fuelOut
deriving DecidableEq

/-- Model of `write_gromos87_conf` from `src/gromos87.rs`: title and atom
count first, then the residue loop over `conf.iter_residues()`, then the box
size. -/
def write_gromos87_conf (conf : Conf) : WriteResult :=
  match writeLoop (conf.atoms.length + 1) conf.iter_residues 0 0 with
  | .ok lines => .ok ⟨conf.title, conf.atoms.length, lines, conf.size⟩
  | .BadResidue r => .BadResidue r
  | .panicked => .panicked
  | .fuelOut => .fuelOut

/-- The atom records of a successful write. -/
def WriteResult.linesOf : WriteResult → Option (List WriteLine)
  | .ok out => some out.lines
  | _ => none

/-- Model of `Conf::pbc_multiply` from `src/conf.rs`: the box size is scaled
by the counts, the residue list shared, and the atoms rebuilt by the triple
loop `for ix in 1..=nx { for iy in 1..=ny { for iz in 1..=nz { .. } } }`,
each image copying every original atom translated by
`size.pbc_multiply(ix - 1, iy - 1, iz - 1)`. -/
def Conf.pbc_multiply (conf : Conf) (nx ny nz : Nat) : Conf :=
  { title := conf.title
    origin := conf.origin
    size := conf.size.pbc_multiply nx ny nz
    residues := conf.residues
    atoms :=
      (List.range' 1 nx).flatMap fun ix =>
        (List.range' 1 ny).flatMap fun iy =>
          (List.range' 1 nz).flatMap fun iz =>
            let dr := conf.size.pbc_multiply (ix - 1) (iy - 1) (iz - 1)
            conf.atoms.map fun atom =>
              ⟨atom.name, atom.residue, atom.position + dr, atom.velocity⟩ }

/-- Atoms `[AT2, AT1, AT1]` against template `[AT1, AT2]`: index 0 is a
start-slot mismatch and index 1 starts an attempt whose offset-1 slot
mismatches. -/
def atomsW2 : List Atom :=
  [mkAtomC1 0 at2C1, mkAtomC1 1 at1C1, mkAtomC1 2 at1C1]

/-- Atoms `[AT1, AT1, AT2]` against template `[AT1, AT2]`: the attempt at 0
fails at offset 1, and the very atom that caused the failure (index 1) then
starts the next, successful, attempt. -/
def atomsC2 : List Atom :=
  [mkAtomC1 0 at1C1, mkAtomC1 1 at1C1, mkAtomC1 2 at2C1]

/-- An atom whose residue declares no atom-name slots at all. -/
def emptyTmplAtom : Atom :=
  ⟨⟨7, ['X']⟩, ⟨⟨6, ['E', 'M', 'P']⟩, []⟩, ⟨0, 0, 0⟩, none⟩

/-- A one-atom list whose only atom references an empty residue template. -/
def atomsC3 : List Atom :=
  [emptyTmplAtom]

/-- A well-formed two-atom list matching the template `[AT1, AT2]` once. -/
def atomsW3 : List Atom :=
  [mkAtomC1 0 at1C1, mkAtomC1 1 at2C1]

/-- The single interned atom-name slot of the wraparound scenario. -/
def n0C7 : NameRef := ⟨1, ['A']⟩

/-- A one-slot residue template. -/
def resC7 : Residue := ⟨⟨0, ['R']⟩, [n0C7]⟩

/-- An atom matching the one-slot template. -/
def atomC7 : Atom := ⟨n0C7, resC7, ⟨0, 0, 0⟩, none⟩

/-- A configuration of 100000 atoms, each forming a one-atom group of the
single residue. -/
def confC7 : Conf :=
  ⟨['T'], ⟨0, 0, 0⟩, ⟨1, 1, 1⟩, [resC7], List.replicate 100000 atomC7⟩

/-- The configuration decoded from the stream whose title line is `" T"`,
atom count 0, box `" 1 1 1"`. -/
def confC6 : Conf :=
  ⟨['T'], ⟨0, 0, 0⟩, ⟨⟨1, 1⟩, ⟨1, 1⟩, ⟨1, 1⟩⟩, [], []⟩

/-- The 52-character atom line whose velocity region is the non-blank single
field `"     1.0"`. -/
def lineC5 : List Char :=
  "    1RES   ATOM1    1000.0012000.0023000.003     1.0".toList

/-- The well-formedness invariant of a residue's slot list relative to the
allocation counter: slot allocation ids are pairwise distinct and below the
counter.  It holds for every residue reachable by building through the
interning operations. -/
def AtomsWF (res : Residue) (fresh : Nat) : Prop :=
  res.atoms.Pairwise (fun a b => a.id ≠ b.id) ∧ ∀ a ∈ res.atoms, a.id < fresh

/- ------------------------------------------------------------------ -/
/- Theorems.                                                           -/
/- ------------------------------------------------------------------ -/

/-- C1 (amended): on one interned two-slot template `[AT1, AT2]` and the atom
list `[AT1, AT2, AT1, AT1, AT1, AT2]`, running the grouping iterator to
completion yields four results in order — a success with the atoms at
indices 0–1, an error starting at index 2, an error starting at index 3, and
a success with the atoms at indices 4–5 — after which the cursor is at 6 and
the iterator reports no more groups.  (The mid-template mismatch at index 3
advances the cursor only by 1, so the atom at index 3 is retried and fails
again as a start-slot attempt cannot be completed there.) -/
theorem grouping_scenario_full_trace :
    runTrace 7 ⟨0, atomsC1⟩ =
      ([(.ok [mkAtomC1 0 at1C1, mkAtomC1 1 at2C1], 0, 2),
        (.err 2, 2, 3),
        (.err 3, 3, 4),
        (.ok [mkAtomC1 4 at1C1, mkAtomC1 5 at2C1], 4, 6)],
       ⟨6, atomsC1⟩, .done) := by decide

/-- C1 counterexample: the iterator's result sequence on that scenario is not
the claimed three-result sequence `Ok(0–1), Err(2), Ok(4–5)`. -/
theorem grouping_scenario_not_three_results :
    (runTrace 7 ⟨0, atomsC1⟩).1.map (fun e => e.1) ≠
      [StepRes.ok [mkAtomC1 0 at1C1, mkAtomC1 1 at2C1],
       StepRes.err 2,
       StepRes.ok [mkAtomC1 4 at1C1, mkAtomC1 5 at2C1]] := by decide

/-- C2 counterexample: on atoms `[AT1, AT1, AT2]` against template
`[AT1, AT2]`, the attempt at index 0 fails at offset 1, the error consumes
only the single atom at index 0 (cursor 0 → 1, excluding the mismatching
atom), and the mismatching atom at index 1 is then examined again as the
start of the next attempt — which succeeds with the group at indices 1–2. -/
theorem mismatching_atom_restarts_next_group :
    runTrace 4 ⟨0, atomsC2⟩ =
      ([(.err 0, 0, 1), (.ok [mkAtomC1 1 at1C1, mkAtomC1 2 at2C1], 1, 3)],
       ⟨3, atomsC2⟩, .done) := by decide

/-- C4 (code-bug evidence): a stream with the box-size line missing panics
(the source's `.expect("could not read box size")`) instead of returning a
format error; a malformed box-size line likewise panics; and a missing first
atom record is reported as `LineError(2)` although that record would sit at
file line 3. -/
theorem decode_box_size_panics_and_atom_line_off_by_one :
    read_gromos87_conf [['T'], ['0']] = .panicked ∧
    read_gromos87_conf [['T'], ['0'], ['a']] = .panicked ∧
    read_gromos87_conf [['T'], ['1']] = .err (.LineError 2) := by decide

/-- C5 counterexample: an atom line of length 52 whose velocity region is the
non-blank text `"     1.0"` — a single parseable 8-character field, fewer
than three — decodes successfully with velocity `None` instead of being a
fatal error. -/
theorem partial_velocity_region_not_fatal :
    strTrim (lineC5.drop 44) ≠ [] ∧
    (parse_atom_line lineC5).map (fun l => l.velocity) = some none := by decide

/-- C6 counterexample: decoding a stream whose title line is `" T"` yields
the title `"T"` — the leading whitespace is not preserved. -/
theorem decode_title_drops_leading_whitespace :
    read_gromos87_conf [" T".toList, "0".toList, " 1 1 1".toList] = .ok confC6 ∧
    confC6.title ≠ " T".toList := by decide

/-- C10: `ResidueIter::next` indexes the first declared slot of the current
atom's residue template before any length check, so if the atom at the
cursor references a residue whose declared atom-name list is empty, the call
panics rather than producing a success, an error, or sequence termination. -/
theorem next_empty_template_panics (it : ResidueIter) (a : Atom)
    (ha : it.atoms[it.index]? = some a) (he : a.residue.atoms = []) :
    it.next = (.panicked, it) := by
  unfold ResidueIter.next
  rw [ha]
  dsimp only
  rw [he]

/-- Witness for the empty-template panic at a concrete input. -/
theorem next_empty_template_panics_witness :
    (⟨0, atomsC3⟩ : ResidueIter).atoms[0]? = some emptyTmplAtom ∧
    emptyTmplAtom.residue.atoms = [] ∧
    (⟨0, atomsC3⟩ : ResidueIter).next = (.panicked, ⟨0, atomsC3⟩) :=
  ⟨by decide, by decide,
   next_empty_template_panics ⟨0, atomsC3⟩ emptyTmplAtom (by decide) (by decide)⟩

/-- The failing offset returned by the template walk is at least the offset
at which the walk started. -/
theorem matchRest_inr_ge (atoms : List Atom) (start : Nat) :
    ∀ (slots : List NameRef) (i j : Nat), matchRest atoms start slots i = .inr j → i ≤ j := by
  intro slots
  induction slots with
  | nil => intro i j h; simp [matchRest] at h
  | cons slot rest ih =>
    intro i j h
    cases hg : atoms[start + i]? with
    | none =>
      simp [matchRest, hg] at h
      omega
    | some atom =>
      by_cases hp : atom.name.ptrEq slot = true
      · simp only [matchRest, hg, hp, if_true] at h
        cases hm : matchRest atoms start rest (i + 1) with
        | inl l => rw [hm] at h; cases h
        | inr j2 =>
          rw [hm] at h
          injection h with hj
          subst hj
          have := ih (i + 1) j2 hm
          omega
      · simp [matchRest, hg, hp] at h
        omega

/-- Behaviour of `next` past the end of the atom list. -/
theorem next_eq_done (it : ResidueIter) (h : it.atoms.length ≤ it.index) :
    it.next = (.done, it) := by
  unfold ResidueIter.next
  rw [List.getElem?_eq_none h]

/-- Behaviour of `next` on a start-slot mismatch. -/
theorem next_eq_start_mismatch (it : ResidueIter) (a : Atom) (slot0 : NameRef)
    (rest : List NameRef)
    (ha : it.atoms[it.index]? = some a) (hres : a.residue.atoms = slot0 :: rest)
    (hp : a.name.ptrEq slot0 = false) :
    it.next = (.err it.index, ⟨it.index + 1, it.atoms⟩) := by
  unfold ResidueIter.next
  rw [ha]
  dsimp only
  rw [hres]
  simp [hp]

/-- Behaviour of `next` on a mid-template mismatch at offset `j`. -/
theorem next_eq_mid_mismatch (it : ResidueIter) (a : Atom) (slot0 : NameRef)
    (rest : List NameRef) (j : Nat)
    (ha : it.atoms[it.index]? = some a) (hres : a.residue.atoms = slot0 :: rest)
    (hp : a.name.ptrEq slot0 = true)
    (hm : matchRest it.atoms it.index rest 1 = .inr j) :
    it.next = (.err it.index, ⟨it.index + j, it.atoms⟩) := by
  unfold ResidueIter.next
  rw [ha]
  dsimp only
  rw [hres]
  simp [hp, hm]

/-- Behaviour of `next` on a full template match. -/
theorem next_eq_success (it : ResidueIter) (a : Atom) (slot0 : NameRef)
    (rest : List NameRef) (l : List Atom)
    (ha : it.atoms[it.index]? = some a) (hres : a.residue.atoms = slot0 :: rest)
    (hp : a.name.ptrEq slot0 = true)
    (hm : matchRest it.atoms it.index rest 1 = .inl l) :
    it.next = (.ok (a :: l), ⟨it.index + (rest.length + 1), it.atoms⟩) := by
  unfold ResidueIter.next
  rw [ha]
  dsimp only
  rw [hres]
  simp [hp, hm, hres]

/-- If the walk starts in bounds and fails at offset `j`, then `start + j`
still lies within the atom list (the walk can only move one past the last
examined position). -/
theorem matchRest_inr_le (atoms : List Atom) (start : Nat) :
    ∀ (slots : List NameRef) (i j : Nat), start + i ≤ atoms.length →
      matchRest atoms start slots i = .inr j → start + j ≤ atoms.length := by
  intro slots
  induction slots with
  | nil => intro i j hb h; simp [matchRest] at h
  | cons slot rest ih =>
    intro i j hb h
    cases hg : atoms[start + i]? with
    | none =>
      simp [matchRest, hg] at h
      omega
    | some atom =>
      obtain ⟨hlt, -⟩ := List.getElem?_eq_some.mp hg
      by_cases hp : atom.name.ptrEq slot = true
      · simp only [matchRest, hg, hp, if_true] at h
        cases hm : matchRest atoms start rest (i + 1) with
        | inl l => rw [hm] at h; cases h
        | inr j2 =>
          rw [hm] at h
          injection h with hj
          subst hj
          exact ih (i + 1) j2 (by omega) hm
      · simp [matchRest, hg, hp] at h
        omega

/-- If the walk starting in bounds succeeds, it collected exactly one atom
per remaining slot and all examined positions lie within the atom list. -/
theorem matchRest_inl_spec (atoms : List Atom) (start : Nat) :
    ∀ (slots : List NameRef) (i : Nat) (l : List Atom), start + i ≤ atoms.length →
      matchRest atoms start slots i = .inl l →
      l.length = slots.length ∧ start + i + slots.length ≤ atoms.length := by
  intro slots
  induction slots with
  | nil =>
    intro i l hb h
    simp [matchRest] at h
    subst h
    simpa using hb
  | cons slot rest ih =>
    intro i l hb h
    cases hg : atoms[start + i]? with
    | none => simp [matchRest, hg] at h
    | some atom =>
      obtain ⟨hlt, -⟩ := List.getElem?_eq_some.mp hg
      by_cases hp : atom.name.ptrEq slot = true
      · simp only [matchRest, hg, hp, if_true] at h
        cases hm : matchRest atoms start rest (i + 1) with
        | inl l2 =>
          rw [hm] at h
          injection h with hl
          subst hl
          obtain ⟨h1, h2⟩ := ih (i + 1) l2 (by omega) hm
          constructor
          · simp [h1]
          · simp only [List.length_cons]
            omega
        | inr j2 => rw [hm] at h; cases h
      · simp [matchRest, hg, hp] at h

/-- C2 (amended): a start-slot mismatch at cursor `i` emits an error carrying
`i` and advances the cursor by exactly 1, consuming only the atom at `i`; a
first mid-template mismatch at offset `j ≥ 1` (missing atom or wrong slot)
emits an error carrying `i` and advances the cursor by exactly `j`, so the
consumed span is the `j` atoms at `i .. i+j-1`, excluding the mismatching
position `i+j`, on which the next attempt then starts.  Every emitted error
carries the absolute cursor position at which the failed attempt began. -/
theorem next_error_recovery (it : ResidueIter) (a : Atom) (slot0 : NameRef)
    (rest : List NameRef)
    (ha : it.atoms[it.index]? = some a) (hres : a.residue.atoms = slot0 :: rest) :
    (a.name.ptrEq slot0 = false →
      it.next = (.err it.index, ⟨it.index + 1, it.atoms⟩)) ∧
    (∀ j, a.name.ptrEq slot0 = true → matchRest it.atoms it.index rest 1 = .inr j →
      1 ≤ j ∧ it.next = (.err it.index, ⟨it.index + j, it.atoms⟩)) := by
  constructor
  · intro hp
    exact next_eq_start_mismatch it a slot0 rest ha hres hp
  · intro j hp hm
    exact ⟨matchRest_inr_ge _ _ _ _ _ hm,
      next_eq_mid_mismatch it a slot0 rest j ha hres hp hm⟩

/-- Witness for the two error-recovery branches on the concrete list
`[AT2, AT1, AT1]` with template `[AT1, AT2]`. -/
theorem next_error_recovery_witness :
    ((⟨0, atomsW2⟩ : ResidueIter).next = (.err 0, ⟨1, atomsW2⟩)) ∧
    (1 ≤ 1 ∧ (⟨1, atomsW2⟩ : ResidueIter).next = (.err 1, ⟨2, atomsW2⟩)) :=
  ⟨(next_error_recovery ⟨0, atomsW2⟩ (mkAtomC1 0 at2C1) at1C1 [at2C1]
      (by decide) (by decide)).1 (by decide),
   (next_error_recovery ⟨1, atomsW2⟩ (mkAtomC1 1 at1C1) at1C1 [at2C1]
      (by decide) (by decide)).2 1 (by decide) (by decide)⟩

/-- One-step unfolding of `runTrace` at positive fuel. -/
theorem runTrace_succ (fuel : Nat) (it : ResidueIter) :
    runTrace (fuel + 1) it =
      match it.next with
      | (.done, it') => ([], it', .done)
      | (.panicked, it') => ([], it', .panicked)
      | (.ok g, it') =>
        let r := runTrace fuel it'
        ((.ok g, it.index, it'.index) :: r.1, r.2)
      | (.err i, it') =>
        let r := runTrace fuel it'
        ((.err i, it.index, it'.index) :: r.1, r.2) := rfl

/-- With every referenced template non-empty, a run started at cursor `idx`
with enough fuel ends with `done` at cursor `atoms.length`; it emits at most
one result per remaining atom, every result strictly advances the cursor
within bounds, and the consumed spans sum to the remaining length. -/
theorem runTrace_complete (atoms : List Atom) (hne : ∀ a ∈ atoms, a.residue.atoms ≠ []) :
    ∀ (fuel idx : Nat), atoms.length ≤ idx + fuel → idx ≤ atoms.length →
      (runTrace (fuel + 1) ⟨idx, atoms⟩).2.2 = .done ∧
      (runTrace (fuel + 1) ⟨idx, atoms⟩).2.1 = ⟨atoms.length, atoms⟩ ∧
      (runTrace (fuel + 1) ⟨idx, atoms⟩).1.length ≤ atoms.length - idx ∧
      (∀ x ∈ (runTrace (fuel + 1) ⟨idx, atoms⟩).1, x.2.1 < x.2.2 ∧ x.2.2 ≤ atoms.length) ∧
      ((runTrace (fuel + 1) ⟨idx, atoms⟩).1.map fun x => x.2.2 - x.2.1).sum =
        atoms.length - idx := by
  intro fuel
  induction fuel with
  | zero =>
    intro idx h1 h2
    have hidx : idx = atoms.length := by omega
    subst hidx
    rw [runTrace_succ, next_eq_done ⟨atoms.length, atoms⟩ (by exact le_refl _)]
    simp
  | succ n ih =>
    intro idx h1 h2
    by_cases hlt : idx < atoms.length
    · cases hga : atoms[idx]? with
      | none =>
        exfalso
        rw [List.getElem?_eq_none_iff] at hga
        omega
      | some a =>
        have hmem : a ∈ atoms := by
          obtain ⟨hl, rfl⟩ := List.getElem?_eq_some.mp hga
          exact List.getElem_mem hl
        cases htmpl : a.residue.atoms with
        | nil => exact absurd htmpl (hne a hmem)
        | cons slot0 rest =>
          by_cases hp : a.name.ptrEq slot0 = true
          · cases hm : matchRest atoms idx rest 1 with
            | inl l =>
              obtain ⟨hl1, hl2⟩ := matchRest_inl_spec atoms idx rest 1 l (by omega) hm
              have hnext := next_eq_success ⟨idx, atoms⟩ a slot0 rest l hga htmpl hp hm
              have ihr := ih (idx + (rest.length + 1)) (by omega) (by omega)
              rw [runTrace_succ, hnext]
              dsimp only
              refine ⟨ihr.1, ihr.2.1, ?_, ?_, ?_⟩
              · simp only [List.length_cons]
                have := ihr.2.2.1
                omega
              · intro x hx
                rcases List.mem_cons.mp hx with hx | hx
                · subst hx
                  constructor
                  · dsimp only
                    omega
                  · dsimp only
                    omega
                · exact ihr.2.2.2.1 x hx
              · simp only [List.map_cons, List.sum_cons]
                have := ihr.2.2.2.2
                omega
            | inr j =>
              have hj1 := matchRest_inr_ge atoms idx rest 1 j hm
              have hj2 := matchRest_inr_le atoms idx rest 1 j (by omega) hm
              have hnext := next_eq_mid_mismatch ⟨idx, atoms⟩ a slot0 rest j hga htmpl hp hm
              have ihr := ih (idx + j) (by omega) (by omega)
              rw [runTrace_succ, hnext]
              dsimp only
              refine ⟨ihr.1, ihr.2.1, ?_, ?_, ?_⟩
              · simp only [List.length_cons]
                have := ihr.2.2.1
                omega
              · intro x hx
                rcases List.mem_cons.mp hx with hx | hx
                · subst hx
                  exact ⟨by dsimp only; omega, by dsimp only; omega⟩
                · exact ihr.2.2.2.1 x hx
              · simp only [List.map_cons, List.sum_cons]
                have := ihr.2.2.2.2
                omega
          · have hp' : a.name.ptrEq slot0 = false := by simpa using hp
            have hnext := next_eq_start_mismatch ⟨idx, atoms⟩ a slot0 rest hga htmpl hp'
            have ihr := ih (idx + 1) (by omega) (by omega)
            rw [runTrace_succ, hnext]
            dsimp only
            refine ⟨ihr.1, ihr.2.1, ?_, ?_, ?_⟩
            · simp only [List.length_cons]
              have := ihr.2.2.1
              omega
            · intro x hx
              rcases List.mem_cons.mp hx with hx | hx
              · subst hx
                exact ⟨by dsimp only; omega, by dsimp only; omega⟩
              · exact ihr.2.2.2.1 x hx
            · simp only [List.map_cons, List.sum_cons]
              have := ihr.2.2.2.2
              omega
    · have hidx : idx = atoms.length := by omega
      subst hidx
      rw [runTrace_succ, next_eq_done ⟨atoms.length, atoms⟩ (by exact le_refl _)]
      simp

/-- C3 (amended): for every finite atom list in which each atom's residue
template is non-empty, every result (success or error) emitted by the
grouping iterator strictly advances the cursor — so consumes at least one
atom — the iterator emits at most `len(atoms)` results before reporting no
more groups, the consumed spans sum to exactly the input length, the final
cursor is `len(atoms)`, and the run ends in sequence termination (never a
panic) even when a template extends past the end of the list.  (The
non-empty-template restriction is forced by the counterexample: an atom
whose residue declares no slots makes `next` panic.) -/
theorem grouping_terminates_and_consumes_all (atoms : List Atom)
    (hne : ∀ a ∈ atoms, a.residue.atoms ≠ []) :
    (runTrace (atoms.length + 1) ⟨0, atoms⟩).2.2 = .done ∧
    (runTrace (atoms.length + 1) ⟨0, atoms⟩).2.1 = ⟨atoms.length, atoms⟩ ∧
    (runTrace (atoms.length + 1) ⟨0, atoms⟩).1.length ≤ atoms.length ∧
    (∀ x ∈ (runTrace (atoms.length + 1) ⟨0, atoms⟩).1, x.2.1 < x.2.2 ∧ x.2.2 ≤ atoms.length) ∧
    ((runTrace (atoms.length + 1) ⟨0, atoms⟩).1.map fun x => x.2.2 - x.2.1).sum =
      atoms.length := by
  have h := runTrace_complete atoms hne atoms.length 0 (by omega) (by omega)
  simpa using h

/-- Witness instantiating the termination theorem on a concrete two-atom
well-formed list. -/
theorem grouping_terminates_and_consumes_all_witness :
    (∀ a ∈ atomsW3, a.residue.atoms ≠ []) ∧
    ((runTrace (atomsW3.length + 1) ⟨0, atomsW3⟩).2.2 = .done ∧
     (runTrace (atomsW3.length + 1) ⟨0, atomsW3⟩).2.1 = ⟨atomsW3.length, atomsW3⟩ ∧
     (runTrace (atomsW3.length + 1) ⟨0, atomsW3⟩).1.length ≤ atomsW3.length ∧
     (∀ x ∈ (runTrace (atomsW3.length + 1) ⟨0, atomsW3⟩).1,
        x.2.1 < x.2.2 ∧ x.2.2 ≤ atomsW3.length) ∧
     ((runTrace (atomsW3.length + 1) ⟨0, atomsW3⟩).1.map fun x => x.2.2 - x.2.1).sum =
       atomsW3.length) :=
  ⟨by decide, grouping_terminates_and_consumes_all atomsW3 (by decide)⟩

/-- C3 counterexample: on the one-atom list whose atom references an empty
residue template, the run panics immediately — no result is emitted, nothing
is consumed, and the iterator never reports no more groups. -/
theorem grouping_empty_template_run_panics :
    runTrace (atomsC3.length + 1) ⟨0, atomsC3⟩ = ([], ⟨0, atomsC3⟩, .panicked) := by
  decide

/-- A fixed-width region whose chunks all parse but run out before three
fields yields `MissingValues` (exactly like a blank region). -/
theorem from_fixed_chunks_exhausted (input : List Char) (len : Nat)
    (hcnt : (chunksOf len input).length < 3)
    (hall : ∀ c ∈ chunksOf len input, (parseF64 (strTrim c)).isSome = true) :
    RVec.from_fixed input len = .error .MissingValues := by
  unfold RVec.from_fixed
  split
  · rfl
  · cases hch : chunksOf len input with
    | nil => simp [nthChunkParse, hch]
    | cons c rest =>
      have hc := hall c (by rw [hch]; exact List.mem_cons_self c rest)
      obtain ⟨v, hv⟩ := Option.isSome_iff_exists.mp hc
      cases rest with
      | nil => simp [nthChunkParse, hch, hv]
      | cons d rest2 =>
        have hd := hall d (by rw [hch]; simp)
        obtain ⟨w, hw⟩ := Option.isSome_iff_exists.mp hd
        cases rest2 with
        | nil => simp [nthChunkParse, hch, hv, hw]
        | cons e rest3 =>
          rw [hch] at hcnt
          simp at hcnt
          omega

/-- C5 (amended): a line shorter than 44 characters is a fatal per-line
error.  On a long-enough line with a well-formed position region: a velocity
region reported as `MissingValues` — blank, or non-blank with every present
8-character chunk parseable but fewer than three chunks — decodes the line
successfully with velocity `None`; a velocity region with an unparsable
chunk among the first three is a fatal error for the line. -/
theorem parse_atom_line_cases (line : List Char) (p : RVec) :
    (line.length < 44 → parse_atom_line line = none) ∧
    (44 ≤ line.length → RVec.from_fixed (line.drop 20) 8 = .ok p →
      ((RVec.from_fixed (line.drop 44) 8 = .error .MissingValues →
          parse_atom_line line =
            some ⟨strTrim (strSlice 5 10 line), strTrim (strSlice 10 15 line), p, none⟩) ∧
       (strTrim (line.drop 44) ≠ [] →
          (∀ c ∈ chunksOf 8 (line.drop 44), (parseF64 (strTrim c)).isSome = true) →
          (chunksOf 8 (line.drop 44)).length < 3 →
          parse_atom_line line =
            some ⟨strTrim (strSlice 5 10 line), strTrim (strSlice 10 15 line), p, none⟩) ∧
       (RVec.from_fixed (line.drop 44) 8 = .error .ParseFloatError →
          parse_atom_line line = none))) := by
  constructor
  · intro h
    unfold parse_atom_line
    rw [if_pos h]
  · intro hlen hpos
    have hnot : ¬ line.length < 44 := by omega
    refine ⟨?_, ?_, ?_⟩
    · intro hmv
      unfold parse_atom_line
      rw [if_neg hnot]
      dsimp only
      rw [hpos, hmv]
    · intro _ hall hcnt
      have hmv := from_fixed_chunks_exhausted (line.drop 44) 8 hcnt hall
      unfold parse_atom_line
      rw [if_neg hnot]
      dsimp only
      rw [hpos, hmv]
    · intro hpf
      unfold parse_atom_line
      rw [if_neg hnot]
      dsimp only
      rw [hpos, hpf]

/-- Witness: a 3-character line is fatal, and the 52-character line whose
velocity region is the single parseable field `"     1.0"` decodes with
velocity `None`. -/
theorem parse_atom_line_cases_witness :
    parse_atom_line "abc".toList = none ∧
    parse_atom_line lineC5 =
      some ⟨strTrim (strSlice 5 10 lineC5), strTrim (strSlice 10 15 lineC5),
        ⟨⟨1000001, 1000⟩, ⟨2000002, 1000⟩, ⟨3000003, 1000⟩⟩, none⟩ :=
  ⟨(parse_atom_line_cases "abc".toList ⟨0, 0, 0⟩).1 (by decide),
   ((parse_atom_line_cases lineC5
        ⟨⟨1000001, 1000⟩, ⟨2000002, 1000⟩, ⟨3000003, 1000⟩⟩).2
      (by decide) (by decide)).2.1 (by decide) (by decide) (by decide)⟩

/-- Trimming both ends ignores a trailing newline. -/
theorem strTrim_append_newline (l : List Char) : strTrim (l ++ ['\n']) = strTrim l := by
  unfold strTrim
  rw [List.dropWhile_append]
  by_cases h : (l.dropWhile Char.isWhitespace).isEmpty
  · rw [List.isEmpty_iff] at h
    simp [h, List.dropWhile]
  · simp only [h, if_false, Bool.false_eq_true, ite_false]
    rw [List.reverse_append]
    simp [List.dropWhile]

/-- C6 (amended): the decoded title is line 1 trimmed of whitespace on both
ends (leading whitespace is removed as well, not preserved). -/
theorem decode_title_is_trimmed_line1 (l0 : List Char) (rest : List (List Char)) (conf : Conf)
    (h : read_gromos87_conf (l0 :: rest) = .ok conf) :
    conf.title = strTrim l0 := by
  unfold read_gromos87_conf at h
  have hl : readLineAt (l0 :: rest) 0 = l0 ++ ['\n'] := by simp [readLineAt]
  rw [hl] at h
  split at h
  · cases h
  · split at h
    · cases h
    · split at h
      · cases h
      · injection h with h2
        rw [← h2]
        exact strTrim_append_newline l0

/-- Witness: decoding the stream with title line `" T"` succeeds and its
title is `strTrim " T" = "T"`. -/
theorem decode_title_is_trimmed_line1_witness :
    read_gromos87_conf (" T".toList :: ["0".toList, " 1 1 1".toList]) = .ok confC6 ∧
    confC6.title = strTrim " T".toList :=
  ⟨by decide,
   decode_title_is_trimmed_line1 " T".toList ["0".toList, " 1 1 1".toList] confC6 (by decide)⟩

/-- One-step unfolding of `writeLoop` at positive fuel. -/
theorem writeLoop_succ (fuel : Nat) (it : ResidueIter) (res_num atom_num : Nat) :
    writeLoop (fuel + 1) it res_num atom_num =
      match it.next with
      | (.done, _) => .ok []
      | (.panicked, _) => .panicked
      | (.err _, _) => .BadResidue (res_num + 1)
      | (.ok group, it') =>
        let res_wrapped := (res_num + 1) % 100000
        let r := emitGroup group res_wrapped atom_num
        match writeLoop fuel it' (res_num + 1) r.2 with
        | .ok rest => .ok (r.1 ++ rest)
        | other => other := rfl

/-- Definitional unfolding of `write_gromos87_conf`. -/
theorem write_gromos87_conf_def (conf : Conf) :
    write_gromos87_conf conf =
      match writeLoop (conf.atoms.length + 1) conf.iter_residues 0 0 with
      | .ok lines => .ok ⟨conf.title, conf.atoms.length, lines, conf.size⟩
      | .BadResidue r => .BadResidue r
      | .panicked => .panicked
      | .fuelOut => .fuelOut := rfl

/-- On the 100000-fold replicated one-atom group, the encoder loop emits one
record per atom, with residue and atom ordinals both wrapped modulo 100000. -/
theorem writeLoop_replicate (M : Nat) :
    ∀ (m k r c : Nat), k + m = M →
      writeLoop (m + 1) ⟨k, List.replicate M atomC7⟩ r c =
        .ok ((List.range m).map fun t =>
          (⟨(r + t + 1) % 100000, resC7.name.text, n0C7.text, (c + t + 1) % 100000,
            atomC7.position, atomC7.velocity⟩ : WriteLine)) := by
  intro m
  induction m with
  | zero =>
    intro k r c hk
    have hnone : (List.replicate M atomC7)[k]? = none := by
      rw [List.getElem?_eq_none_iff]
      simp
      omega
    have hnext := next_eq_done ⟨k, List.replicate M atomC7⟩ (by simp; omega)
    rw [writeLoop_succ, hnext]
    simp
  | succ m ih =>
    intro k r c hk
    have hga : (List.replicate M atomC7)[k]? = some atomC7 := by
      rw [List.getElem?_replicate, if_pos (by omega)]
    have hnext := next_eq_success ⟨k, List.replicate M atomC7⟩ atomC7 n0C7 [] []
      hga (by decide) (by decide) rfl
    rw [writeLoop_succ, hnext]
    dsimp only
    have hemit : emitGroup [atomC7] ((r + 1) % 100000) c =
        ([(⟨(r + 1) % 100000, resC7.name.text, n0C7.text, (c + 1) % 100000,
           atomC7.position, atomC7.velocity⟩ : WriteLine)], c + 1) := rfl
    rw [hemit]
    dsimp only
    simp only [List.length_nil, Nat.zero_add]
    rw [ih (k + 1) (r + 1) (c + 1) (by omega)]
    dsimp only
    rw [List.singleton_append, List.range_succ_eq_map, List.map_cons, List.map_map]
    congr 1
    congr 1
    apply List.map_congr_left
    intro t _
    simp only [Function.comp_apply, Nat.succ_eq_add_one]
    congr 1
    all_goals omega

/-- C7: the residue ordinal and the running global atom ordinal in the
encoded records are taken modulo 100000 — the residue ordinal incrementing
once per successful group, the atom ordinal once per atom — so encoding the
configuration of 100000 atoms, each forming a one-atom group of the single
residue, emits exactly 100000 records whose `k`-th record (1-based) carries
`k % 100000` in both index fields; in particular the 100000th record's
residue index field and atom index field both read 0, not 100000. -/
theorem write_wraparound_100000 :
    write_gromos87_conf confC7 =
      .ok ⟨confC7.title, 100000,
        (List.range 100000).map fun t =>
          (⟨(t + 1) % 100000, resC7.name.text, n0C7.text, (t + 1) % 100000,
            atomC7.position, atomC7.velocity⟩ : WriteLine), confC7.size⟩ ∧
    ((List.range 100000).map fun t =>
        (⟨(t + 1) % 100000, resC7.name.text, n0C7.text, (t + 1) % 100000,
          atomC7.position, atomC7.velocity⟩ : WriteLine)).length = 100000 ∧
    ((List.range 100000).map fun t =>
        (⟨(t + 1) % 100000, resC7.name.text, n0C7.text, (t + 1) % 100000,
          atomC7.position, atomC7.velocity⟩ : WriteLine))[99999]? =
      some ⟨0, resC7.name.text, n0C7.text, 0, atomC7.position, atomC7.velocity⟩ := by
  have h := writeLoop_replicate 100000 100000 0 0 0 (by omega)
  refine ⟨?_, ?_, ?_⟩
  · have hlen : confC7.atoms.length = 100000 := by
      rw [show confC7.atoms = List.replicate 100000 atomC7 from rfl, List.length_replicate]
    have hmap : ((List.range 100000).map fun t =>
        (⟨(0 + t + 1) % 100000, resC7.name.text, n0C7.text, (0 + t + 1) % 100000,
          atomC7.position, atomC7.velocity⟩ : WriteLine)) =
        ((List.range 100000).map fun t =>
        (⟨(t + 1) % 100000, resC7.name.text, n0C7.text, (t + 1) % 100000,
          atomC7.position, atomC7.velocity⟩ : WriteLine)) := by
      apply List.map_congr_left
      intro t _
      simp only [Nat.zero_add]
    rw [write_gromos87_conf_def, hlen,
      show confC7.iter_residues = ⟨0, List.replicate 100000 atomC7⟩ from rfl, h, hmap]
  · rw [List.length_map, List.length_range]
  · rw [List.getElem?_map, List.getElem?_range (by omega)]
    decide

/-- A flattened loop of constant inner length has length `n` times that
constant. -/
theorem length_flatMap_const (g : Nat → List Atom) (n K : Nat)
    (hg : ∀ a, (g a).length = K) : ((List.range n).flatMap g).length = n * K := by
  induction n with
  | zero => simp
  | succ n ihn =>
    rw [List.range_succ, List.flatMap_append]
    simp [ihn, hg]
    ring

/-- C8: for every configuration and counts `(nx, ny, nz)`, `pbc_multiply`
keeps the title, origin and shared residue list, scales the box size
component-wise by the counts, and rebuilds the atom list as one translated
copy of every original atom per offset triple `(a, b, c) = (ix-1, iy-1, iz-1)`
with `0 ≤ a < nx`, `0 ≤ b < ny`, `0 ≤ c < nz`, enumerated with the `z` offset
varying fastest, then `y`, then `x`, each copy sharing the original atom's
interned name and residue references, its position offset by
`size.pbc_multiply a b c` and its velocity unchanged; the total count is
`original * (nx * ny * nz)`. -/
theorem pbc_multiply_spec (conf : Conf) (nx ny nz : Nat) :
    (conf.pbc_multiply nx ny nz).title = conf.title ∧
    (conf.pbc_multiply nx ny nz).origin = conf.origin ∧
    (conf.pbc_multiply nx ny nz).residues = conf.residues ∧
    (conf.pbc_multiply nx ny nz).size =
      ⟨conf.size.x * Fl.ofNat nx, conf.size.y * Fl.ofNat ny, conf.size.z * Fl.ofNat nz⟩ ∧
    (conf.pbc_multiply nx ny nz).atoms =
      (List.range nx).flatMap (fun a =>
        (List.range ny).flatMap fun b =>
          (List.range nz).flatMap fun c =>
            conf.atoms.map fun atom =>
              ⟨atom.name, atom.residue, atom.position + conf.size.pbc_multiply a b c,
               atom.velocity⟩) ∧
    (conf.pbc_multiply nx ny nz).atoms.length = conf.atoms.length * (nx * ny * nz) := by
  have hatoms : (conf.pbc_multiply nx ny nz).atoms =
      (List.range nx).flatMap (fun a =>
        (List.range ny).flatMap fun b =>
          (List.range nz).flatMap fun c =>
            conf.atoms.map fun atom =>
              ⟨atom.name, atom.residue, atom.position + conf.size.pbc_multiply a b c,
               atom.velocity⟩) := by
    show ((List.range' 1 nx).flatMap fun ix =>
        (List.range' 1 ny).flatMap fun iy =>
          (List.range' 1 nz).flatMap fun iz =>
            let dr := conf.size.pbc_multiply (ix - 1) (iy - 1) (iz - 1)
            conf.atoms.map fun atom =>
              (⟨atom.name, atom.residue, atom.position + dr, atom.velocity⟩ : Atom)) =
      (List.range nx).flatMap (fun a =>
        (List.range ny).flatMap fun b =>
          (List.range nz).flatMap fun c =>
            conf.atoms.map fun atom =>
              (⟨atom.name, atom.residue, atom.position + conf.size.pbc_multiply a b c,
                atom.velocity⟩ : Atom))
    simp only [List.range'_eq_map_range, List.flatMap_map, Nat.add_sub_cancel_left]
  refine ⟨rfl, rfl, rfl, rfl, hatoms, ?_⟩
  rw [hatoms, length_flatMap_const _ nx (ny * (nz * conf.atoms.length))
    (fun a => length_flatMap_const _ ny (nz * conf.atoms.length)
      (fun b => length_flatMap_const _ nz conf.atoms.length
        (fun c => List.length_map _ _)))]
  ring

/-- A successful residue lookup returns an in-range position holding an entry
of the queried name text. -/
theorem findResIdx_some_spec (s : List Char) :
    ∀ (l : List Residue) (i : Nat), findResIdx s l = some i →
      ∃ r, l[i]? = some r ∧ r.name.text = s := by
  intro l
  induction l with
  | nil => intro i h; cases h
  | cons r rest ih =>
    intro i h
    by_cases hr : r.name.text = s
    · simp only [findResIdx, hr, if_true] at h
      injection h with h2
      subst h2
      exact ⟨r, by simp, hr⟩
    · simp only [findResIdx, hr, if_false] at h
      obtain ⟨j, hj, rfl⟩ := Option.map_eq_some'.mp h
      obtain ⟨r2, hr2, ht2⟩ := ih j hj
      exact ⟨r2, by simpa using hr2, ht2⟩

/-- A failed residue lookup means no entry carries the queried name text. -/
theorem findResIdx_none_spec (s : List Char) :
    ∀ (l : List Residue), findResIdx s l = none → ∀ r ∈ l, r.name.text ≠ s := by
  intro l
  induction l with
  | nil => intro _ r hr; cases hr
  | cons r rest ih =>
    intro h r2 hr2
    by_cases hr : r.name.text = s
    · simp [findResIdx, hr] at h
    · simp only [findResIdx, hr, if_false, Option.map_eq_none'] at h
      rcases List.mem_cons.mp hr2 with h2 | h2
      · subst h2; exact hr
      · exact ih h r2 h2

/-- Appending a matching entry after a failed lookup makes the lookup return
its position. -/
theorem findResIdx_append_spec (s : List Char) (x : Residue) (hx : x.name.text = s) :
    ∀ (l : List Residue), findResIdx s l = none → findResIdx s (l ++ [x]) = some l.length := by
  intro l
  induction l with
  | nil => intro _; simp [findResIdx, hx]
  | cons r rest ih =>
    intro h
    by_cases hr : r.name.text = s
    · simp [findResIdx, hr] at h
    · simp only [findResIdx, hr, if_false, Option.map_eq_none'] at h
      rw [List.cons_append]
      simp only [findResIdx, hr, if_false]
      rw [ih h]
      simp

/-- A successful slot lookup returns a member slot of the queried text. -/
theorem findAtomRef_some_spec (s : List Char) :
    ∀ (l : List NameRef) (n : NameRef), findAtomRef s l = some n → n ∈ l ∧ n.text = s := by
  intro l
  induction l with
  | nil => intro n h; cases h
  | cons m rest ih =>
    intro n h
    by_cases hm : m.text = s
    · simp only [findAtomRef, hm, if_true] at h
      injection h with h2
      subst h2
      exact ⟨List.mem_cons_self m rest, hm⟩
    · simp only [findAtomRef, hm, if_false] at h
      obtain ⟨h1, h2⟩ := ih n h
      exact ⟨List.mem_cons_of_mem m h1, h2⟩

/-- A failed slot lookup means no slot carries the queried text. -/
theorem findAtomRef_none_spec (s : List Char) :
    ∀ (l : List NameRef), findAtomRef s l = none → ∀ n ∈ l, n.text ≠ s := by
  intro l
  induction l with
  | nil => intro _ n hn; cases hn
  | cons m rest ih =>
    intro h n hn
    by_cases hm : m.text = s
    · simp [findAtomRef, hm] at h
    · simp only [findAtomRef, hm, if_false] at h
      rcases List.mem_cons.mp hn with h2 | h2
      · subst h2; exact hm
      · exact ih h n h2

/-- Appending a matching slot after a failed lookup makes the lookup return
that slot. -/
theorem findAtomRef_append_spec (s : List Char) (x : NameRef) (hx : x.text = s) :
    ∀ (l : List NameRef), findAtomRef s l = none → findAtomRef s (l ++ [x]) = some x := by
  intro l
  induction l with
  | nil => intro _; simp [findAtomRef, hx]
  | cons m rest ih =>
    intro h
    by_cases hm : m.text = s
    · simp [findAtomRef, hm] at h
    · simp only [findAtomRef, hm, if_false] at h
      simp only [List.cons_append, findAtomRef, hm, if_false]
      exact ih h

/-- The slot returned by `get_or_insert_atom` belongs to the updated residue,
carries the queried text, and its allocation id is below the updated counter;
the update preserves the slot-list well-formedness invariant, never lowers
the counter, and only ever appends. -/
theorem get_or_insert_atom_spec (res : Residue) (s : List Char) (f : Nat)
    (hwf : AtomsWF res f) :
    (res.get_or_insert_atom s f).1 ∈ (res.get_or_insert_atom s f).2.1.atoms ∧
    (res.get_or_insert_atom s f).1.text = s ∧
    (res.get_or_insert_atom s f).1.id < (res.get_or_insert_atom s f).2.2 ∧
    AtomsWF (res.get_or_insert_atom s f).2.1 (res.get_or_insert_atom s f).2.2 ∧
    f ≤ (res.get_or_insert_atom s f).2.2 ∧
    (res.get_or_insert_atom s f).2.1.atoms.take res.atoms.length = res.atoms := by
  cases hfa : findAtomRef s res.atoms with
  | some n =>
    have e1 : res.get_or_insert_atom s f = (n, res, f) := by
      simp [Residue.get_or_insert_atom, hfa]
    obtain ⟨hmem, htext⟩ := findAtomRef_some_spec s res.atoms n hfa
    rw [e1]
    exact ⟨hmem, htext, hwf.2 n hmem, hwf, le_refl f, List.take_length res.atoms⟩
  | none =>
    have e1 : res.get_or_insert_atom s f =
        (⟨f, s⟩, { res with atoms := res.atoms ++ [⟨f, s⟩] }, f + 1) := by
      simp [Residue.get_or_insert_atom, hfa]
    rw [e1]
    refine ⟨List.mem_append_right res.atoms (List.mem_cons_self _ _), rfl,
      by dsimp only; omega, ?_, by dsimp only; omega, List.take_left res.atoms _⟩
    constructor
    · rw [List.pairwise_append]
      refine ⟨hwf.1, List.pairwise_singleton _ _, ?_⟩
      intro a ha b hb
      have hbb : b = ⟨f, s⟩ := by simpa using hb
      have := hwf.2 a ha
      subst hbb
      dsimp only
      omega
    · intro a ha
      rcases List.mem_append.mp ha with h2 | h2
      · have := hwf.2 a h2
        dsimp only
        omega
      · have haa : a = ⟨f, s⟩ := by simpa using h2
        subst haa
        dsimp only
        omega

/-- Equation of `get_or_insert_residue` when the text is present. -/
theorem get_or_insert_residue_found (s : List Char) (l : List Residue) (fr i : Nat)
    (hf : findResIdx s l = some i) : get_or_insert_residue s l fr = (i, l, fr) := by
  unfold get_or_insert_residue
  rw [hf]

/-- Equation of `get_or_insert_residue` when the text is absent. -/
theorem get_or_insert_residue_missing (s : List Char) (l : List Residue) (fr : Nat)
    (hf : findResIdx s l = none) :
    get_or_insert_residue s l fr = (l.length, l ++ [⟨⟨fr, s⟩, []⟩], fr + 1) := by
  unfold get_or_insert_residue
  rw [hf]

/-- Equation of `get_or_insert_atom` when the text is present. -/
theorem get_or_insert_atom_found (r : Residue) (s : List Char) (f : Nat) (n : NameRef)
    (hfa : findAtomRef s r.atoms = some n) : r.get_or_insert_atom s f = (n, r, f) := by
  unfold Residue.get_or_insert_atom
  rw [hfa]

/-- Equation of `get_or_insert_atom` when the text is absent. -/
theorem get_or_insert_atom_missing (r : Residue) (s : List Char) (f : Nat)
    (hfa : findAtomRef s r.atoms = none) :
    r.get_or_insert_atom s f = (⟨f, s⟩, { r with atoms := r.atoms ++ [⟨f, s⟩] }, f + 1) := by
  unfold Residue.get_or_insert_atom
  rw [hfa]

/-- C9: interning is idempotent and append-only.  On one residue list,
looking up the same residue name text twice returns the identical handle and
leaves the list untouched, lookups of two different texts never return the
same handle, a lookup never removes entries (the old list is a prefix of the
new one), and a lookup of an absent text appends exactly one new residue with
an empty atom-name list.  Within one residue (whose slot allocation ids are
well-formed for the counter), looking up the same atom name text twice
returns the identical interned name handle, lookups of two different texts
never return reference-identical (same allocation id) handles, no slot is
ever removed, and an absent text appends exactly one freshly allocated
slot. -/
theorem interning_idempotent_append_only
    (residues : List Residue) (res : Residue) (s t : List Char) (fresh f : Nat)
    (hst : s ≠ t) (hwf : AtomsWF res f) :
    (get_or_insert_residue s (get_or_insert_residue s residues fresh).2.1
        (get_or_insert_residue s residues fresh).2.2 =
      get_or_insert_residue s residues fresh) ∧
    ((get_or_insert_residue t (get_or_insert_residue s residues fresh).2.1
        (get_or_insert_residue s residues fresh).2.2).1 ≠
      (get_or_insert_residue s residues fresh).1) ∧
    ((get_or_insert_residue s residues fresh).2.1.take residues.length = residues) ∧
    ((∀ r ∈ residues, r.name.text ≠ s) →
      (get_or_insert_residue s residues fresh).2.1 = residues ++ [⟨⟨fresh, s⟩, []⟩]) ∧
    (Residue.get_or_insert_atom (res.get_or_insert_atom s f).2.1 s
        (res.get_or_insert_atom s f).2.2 = res.get_or_insert_atom s f) ∧
    ((Residue.get_or_insert_atom (res.get_or_insert_atom s f).2.1 t
        (res.get_or_insert_atom s f).2.2).1.id ≠ (res.get_or_insert_atom s f).1.id) ∧
    ((res.get_or_insert_atom s f).2.1.atoms.take res.atoms.length = res.atoms) ∧
    ((∀ n ∈ res.atoms, n.text ≠ s) →
      (res.get_or_insert_atom s f).2.1.atoms = res.atoms ++ [⟨f, s⟩]) := by
  have hres : ∃ r, (get_or_insert_residue s residues fresh).2.1[
      (get_or_insert_residue s residues fresh).1]? = some r ∧ r.name.text = s ∧
      (get_or_insert_residue s residues fresh).1 <
        (get_or_insert_residue s residues fresh).2.1.length := by
    cases hf : findResIdx s residues with
    | some i =>
      obtain ⟨r, hr, ht⟩ := findResIdx_some_spec s residues i hf
      obtain ⟨hlt, -⟩ := List.getElem?_eq_some.mp hr
      rw [get_or_insert_residue_found s residues fresh i hf]
      exact ⟨r, hr, ht, hlt⟩
    | none =>
      rw [get_or_insert_residue_missing s residues fresh hf]
      refine ⟨⟨⟨fresh, s⟩, []⟩, ?_, rfl, ?_⟩
      · exact List.getElem?_concat_length residues _
      · simp
  refine ⟨?_, ?_, ?_, ?_, ?_, ?_, ?_, ?_⟩
  · cases hf : findResIdx s residues with
    | some i =>
      have e1 := get_or_insert_residue_found s residues fresh i hf
      rw [e1]
      exact e1
    | none =>
      have e1 := get_or_insert_residue_missing s residues fresh hf
      have h2 := findResIdx_append_spec s ⟨⟨fresh, s⟩, []⟩ rfl residues hf
      rw [e1]
      exact get_or_insert_residue_found s _ (fresh + 1) residues.length h2
  · obtain ⟨r1, hr1, ht1, hlt1⟩ := hres
    cases hf2 : findResIdx t (get_or_insert_residue s residues fresh).2.1 with
    | some i2 =>
      rw [get_or_insert_residue_found t _ _ i2 hf2]
      obtain ⟨r2, hr2, ht2⟩ :=
        findResIdx_some_spec t (get_or_insert_residue s residues fresh).2.1 i2 hf2
      intro hc
      dsimp only at hc
      rw [hc, hr1] at hr2
      injection hr2 with hr2
      subst hr2
      exact hst (ht1 ▸ ht2)
    | none =>
      rw [get_or_insert_residue_missing t _ _ hf2]
      dsimp only
      omega
  · cases hf : findResIdx s residues with
    | some i =>
      rw [get_or_insert_residue_found s residues fresh i hf]
      exact List.take_length residues
    | none =>
      rw [get_or_insert_residue_missing s residues fresh hf]
      exact List.take_left residues _
  · intro habs
    cases hf : findResIdx s residues with
    | some i =>
      obtain ⟨r, hr, ht⟩ := findResIdx_some_spec s residues i hf
      obtain ⟨hlt, hget⟩ := List.getElem?_eq_some.mp hr
      exact absurd ht (habs r (hget ▸ List.getElem_mem hlt))
    | none =>
      rw [get_or_insert_residue_missing s residues fresh hf]
  · cases hfa : findAtomRef s res.atoms with
    | some n =>
      have e1 := get_or_insert_atom_found res s f n hfa
      rw [e1]
      exact e1
    | none =>
      have e1 := get_or_insert_atom_missing res s f hfa
      have h2 := findAtomRef_append_spec s ⟨f, s⟩ rfl res.atoms hfa
      rw [e1]
      exact get_or_insert_atom_found _ s (f + 1) ⟨f, s⟩ h2
  · obtain ⟨hmem1, htext1, hid1, hwf1, -, -⟩ := get_or_insert_atom_spec res s f hwf
    cases hfa2 : findAtomRef t (res.get_or_insert_atom s f).2.1.atoms with
    | some n2 =>
      rw [get_or_insert_atom_found _ t _ n2 hfa2]
      obtain ⟨hmem2, htext2⟩ :=
        findAtomRef_some_spec t (res.get_or_insert_atom s f).2.1.atoms n2 hfa2
      have hne : n2 ≠ (res.get_or_insert_atom s f).1 := by
        intro hc
        rw [hc] at htext2
        exact hst (htext1 ▸ htext2)
      exact List.Pairwise.forall (fun a b h => Ne.symm h) hwf1.1 hmem2 hmem1 hne
    | none =>
      rw [get_or_insert_atom_missing _ t _ hfa2]
      dsimp only
      omega
  · exact (get_or_insert_atom_spec res s f hwf).2.2.2.2.2
  · intro habs
    cases hfa : findAtomRef s res.atoms with
    | some n =>
      obtain ⟨hmem, htext⟩ := findAtomRef_some_spec s res.atoms n hfa
      exact absurd htext (habs n hmem)
    | none =>
      rw [get_or_insert_atom_missing res s f hfa]

/-- Witness instantiating the interning theorem on an empty residue list and
an empty residue with counter 1. -/
theorem interning_idempotent_append_only_witness :
    (['A'] : List Char) ≠ ['B'] ∧ AtomsWF ⟨⟨0, ['R']⟩, []⟩ 1 ∧
    get_or_insert_residue ['A'] (get_or_insert_residue ['A'] [] 1).2.1
        (get_or_insert_residue ['A'] [] 1).2.2 =
      get_or_insert_residue ['A'] [] 1 := by
  have hwf : AtomsWF ⟨⟨0, ['R']⟩, []⟩ 1 := ⟨List.Pairwise.nil, by intro a ha; cases ha⟩
  exact ⟨by decide, hwf,
    (interning_idempotent_append_only [] ⟨⟨0, ['R']⟩, []⟩ ['A'] ['B'] 1 1 (by decide) hwf).1⟩
